import Mathlib

/-!
Verification of the `bitset_collection` crate: a presence-indexed adapter
(`BitSetCollection`) that wraps an arbitrary backing container conforming to
the `Collection` capability contract and mirrors its populated keys in a
`hibitset::BitSet`.

Shallow embedding notes:
* the `hibitset::BitSet` is modelled as its membership list kept in strictly
  ascending order (that is exactly the observable behaviour of a dense bit
  set: membership plus ascending iteration);
* the `Collection` trait is modelled as a record of operations
  (`CollectionOps`); stateful Rust methods become explicit state passing;
* `TryInto<u32>` / `TryFrom<u32>` key conversions become `Option`-valued
  functions, and the `.unwrap()` panics of the source become
  `Except KeyRangeError` results.
-/

/-- The fatal error raised when a key cannot be converted to or from its
32-bit integer representation (the `.unwrap()` panic on `try_into`). -/
inductive KeyRangeError where
  | keyRange
deriving DecidableEq

/-- Membership test of the bit-set model: `hibitset::BitSet::contains`. -/
def bitsetContains (n : Nat) (l : List Nat) : Bool :=
  decide (n ∈ l)

/-- `hibitset::BitSet::add`: insert `n`, keeping the element list in strictly
ascending order (a no-op when `n` is already present). -/
def bitsetAdd (n : Nat) : List Nat → List Nat
  | [] => [n]
  | m :: rest =>
    if n < m then n :: m :: rest
    else if n = m then m :: rest
    else m :: bitsetAdd n rest

/-- `hibitset::BitSet::remove`: drop `n` from the element list. -/
def bitsetRemove (n : Nat) (l : List Nat) : List Nat :=
  l.filter (fun m => !(m == n))

/-- `FromIterator<u32> for BitSet`: collect a list of integers into a bit set
by repeated `add`. -/
def bitsetFromList (l : List Nat) : List Nat :=
  l.foldl (fun s n => bitsetAdd n s) []

/-- Convert every element of a list, failing if any single conversion fails
(models an iterator of `.unwrap()`ped conversions being collected). -/
def tryConvert {A B : Type} (f : A → Option B) : List A → Option (List B)
  | [] => some []
  | x :: rest =>
    match f x with
    | none => none
    | some y => (tryConvert f rest).map (y :: ·)

/-- The `Collection` capability contract (the `collection_trait` crate, a
dependency whose source is not part of this repository): get, unchecked get,
insert, remove, key iteration and membership, per spec section 4.1. -/
structure CollectionOps (K V C : Type) where
  get : C → K → Option V
  get_unchecked : C → K → V
  insert : C → K → V → Option V × C
  remove : C → K → Option V × C
  keys : C → List K
  contains_key : C → K → Bool

/-- The adapter: a bit-set presence index paired with the wrapped backing
container (`BitSetCollection` in `src/lib.rs`). -/
structure BitSetCollection (C : Type) where
  bitset : List Nat
  collection : C
deriving DecidableEq

namespace BitSetCollection

variable {K V C : Type}

/-- `BitSetCollection::new`: scan the container's keys, convert each to `u32`
(fatal on failure) and collect them into the presence index; the container
itself is taken by value. -/
def new (inst : CollectionOps K V C) (toU32 : K → Option Nat) (c : C) :
    Except KeyRangeError (BitSetCollection C) :=
  match tryConvert toU32 (inst.keys c) with
  | none => .error .keyRange
  | some ns => .ok ⟨bitsetFromList ns, c⟩

/-- `Collection::get` for `BitSetCollection`: convert the key (fatal on
failure); if the presence index holds it, delegate to the container's
unchecked get, otherwise answer `none` without touching the container. -/
def get (inst : CollectionOps K V C) (toU32 : K → Option Nat)
    (a : BitSetCollection C) (k : K) : Except KeyRangeError (Option V) :=
  match toU32 k with
  | none => .error .keyRange
  | some kk =>
    if bitsetContains kk a.bitset then
      .ok (some (inst.get_unchecked a.collection k))
    else
      .ok none

/-- `Collection::insert` for `BitSetCollection`: add the key's integer form
to the presence index unconditionally, then delegate to the container's
insert and return its result. -/
def insert (inst : CollectionOps K V C) (toU32 : K → Option Nat)
    (a : BitSetCollection C) (k : K) (v : V) :
    Except KeyRangeError (Option V × BitSetCollection C) :=
  match toU32 k with
  | none => .error .keyRange
  | some kk =>
    let r := inst.insert a.collection k v
    .ok (r.1, ⟨bitsetAdd kk a.bitset, r.2⟩)

/-- `Collection::remove` for `BitSetCollection`: remove the key's integer
form from the presence index unconditionally, then delegate to the
container's remove and return its result. -/
def remove (inst : CollectionOps K V C) (toU32 : K → Option Nat)
    (a : BitSetCollection C) (k : K) :
    Except KeyRangeError (Option V × BitSetCollection C) :=
  match toU32 k with
  | none => .error .keyRange
  | some kk =>
    let r := inst.remove a.collection k
    .ok (r.1, ⟨bitsetRemove kk a.bitset, r.2⟩)

/-- `Collection::keys` for `BitSetCollection`: iterate a clone of the
presence index in ascending order, converting each integer back to the key
type (fatal on failure). -/
def keys (fromU32 : Nat → Option K) (a : BitSetCollection C) :
    Except KeyRangeError (List K) :=
  match tryConvert fromU32 a.bitset with
  | none => .error .keyRange
  | some ks => .ok ks

/-- `Collection::contains_key` for `BitSetCollection`: a pure presence-index
lookup that never touches the backing container. -/
def contains_key (toU32 : K → Option Nat) (a : BitSetCollection C) (k : K) :
    Except KeyRangeError Bool :=
  match toU32 k with
  | none => .error .keyRange
  | some kk => .ok (bitsetContains kk a.bitset)

/-- `FromIterator<(K, V)> for BitSetCollection`: insert every pair into a
default-constructed container, then build the adapter with `new` (whose key
scan populates the presence index). `dfl` stands for `C::default()`. -/
def from_iter (inst : CollectionOps K V C) (toU32 : K → Option Nat)
    (dfl : C) (ps : List (K × V)) : Except KeyRangeError (BitSetCollection C) :=
  new inst toU32 (ps.foldl (fun c p => (inst.insert c p.1 p.2).2) dfl)

/-- States of the adapter reachable from `Default` (empty bit set, default
container), or from a successful `new`, by successful `insert` / `remove`
operations. -/
inductive Reachable (inst : CollectionOps K V C) (toU32 : K → Option Nat)
    (dfl : C) : BitSetCollection C → Prop where
  | empty : Reachable inst toU32 dfl ⟨[], dfl⟩
  | fromNew (c : C) (a : BitSetCollection C) :
      new inst toU32 c = .ok a → Reachable inst toU32 dfl a
  | insStep (a : BitSetCollection C) (k : K) (v : V) (r : Option V)
      (a' : BitSetCollection C) : Reachable inst toU32 dfl a →
      insert inst toU32 a k v = .ok (r, a') → Reachable inst toU32 dfl a'
  | remStep (a : BitSetCollection C) (k : K) (r : Option V)
      (a' : BitSetCollection C) : Reachable inst toU32 dfl a →
      remove inst toU32 a k = .ok (r, a') → Reachable inst toU32 dfl a'

end BitSetCollection

/-- `usize::try_into::<u32>()` on a 64-bit platform: succeeds exactly below
`2 ^ 32`, and the in-range value is unchanged. -/
def usizeToU32 (k : Nat) : Option Nat :=
  if k < 4294967296 then some k else none

/-- `u32::try_into::<usize>()` on a 64-bit platform: always succeeds. -/
def u32ToUsize (n : Nat) : Option Nat :=
  some n

/-! ### A conforming map backend

The `Collection` implementations for the concrete backends live in the
`collection_trait` crate, whose source is not part of this repository; the
map-shaped backend is therefore modelled from the spec (section 4.1): a
key-value association with native get / insert / remove / keys /
contains-key semantics, insert returning the previous value. -/

/-- Modelled from the spec: the map backend's `get` — the value stored for
`k`, if any (`collection_trait`'s map implementation is not under `src/`). -/
def mapGet {V : Type} : List (Nat × V) → Nat → Option V
  | [], _ => none
  | (k', v') :: rest, k => if k' = k then some v' else mapGet rest k

/-- Modelled from the spec: the map backend's `insert` — store `v` under `k`,
returning the previous value if one existed. -/
def mapInsert {V : Type} : List (Nat × V) → Nat → V → Option V × List (Nat × V)
  | [], k, v => (none, [(k, v)])
  | (k', v') :: rest, k, v =>
    if k' = k then (some v', (k, v) :: rest)
    else
      let r := mapInsert rest k v
      (r.1, (k', v') :: r.2)

/-- Modelled from the spec: the map backend's `remove` — delete the entry for
`k`, returning it if present. -/
def mapRemove {V : Type} (m : List (Nat × V)) (k : Nat) :
    Option V × List (Nat × V) :=
  (mapGet m k, m.filter (fun p => !(p.1 == k)))

/-- Modelled from the spec: the map backend's `keys` — all keys currently
holding a value. -/
def mapKeys {V : Type} (m : List (Nat × V)) : List Nat :=
  m.map Prod.fst

/-- Modelled from the spec: the map backend's `contains_key`. -/
def mapContains {V : Type} (m : List (Nat × V)) (k : Nat) : Bool :=
  (mapGet m k).isSome

/-- Modelled from the spec: the map backend's `get_unchecked` — a fast-path
read whose behaviour is implementation-defined when the key is absent
(modelled by a default value). -/
def mapGetUnchecked {V : Type} [Inhabited V] (m : List (Nat × V)) (k : Nat) : V :=
  (mapGet m k).getD default

/-- Modelled from the spec: the map backend packaged as a `Collection`
capability record. -/
def mapOps (V : Type) [Inhabited V] : CollectionOps Nat V (List (Nat × V)) where
  get := mapGet
  get_unchecked := mapGetUnchecked
  insert := mapInsert
  remove := mapRemove
  keys := mapKeys
  contains_key := mapContains

/-- The refinement-side construction of claim C5, written from the spec's
words: default-construct the empty adapter, then perform the adapter's own
`insert` for each `(key, value)` pair in input order. To be compared with
`BitSetCollection.from_iter`, which is translated from the source. -/
def specFromPairs {V : Type} [Inhabited V] (ps : List (Nat × V)) :
    Except KeyRangeError (BitSetCollection (List (Nat × V))) :=
  ps.foldlM
    (fun a p =>
      (BitSetCollection.insert (mapOps V) usizeToU32 a p.1 p.2).map Prod.snd)
    ⟨[], []⟩

/-- The state transformation of one successful adapter `insert` over the map
backend at an in-range key (the pure core of `specFromPairs`). -/
def specStep {V : Type} (a : BitSetCollection (List (Nat × V)))
    (p : Nat × V) : BitSetCollection (List (Nat × V)) :=
  ⟨bitsetAdd p.1 a.bitset, (mapInsert a.collection p.1 p.2).2⟩

/-- Events interleaving consumption of an in-flight key sequence with
mutations of the adapter it came from (for claim C10). -/
inductive IterOp (V : Type) where
  | next
  | ins (k : Nat) (v : V)
  | rem (k : Nat)

/-- Whether an event consumes the iterator rather than mutating the
adapter. -/
def IterOp.isNext {V : Type} : IterOp V → Bool
  | .next => true
  | _ => false

/-- A machine state for claim C10: the adapter, the in-flight key iterator's
remaining elements, and the keys produced so far. -/
structure IterRun (V : Type) where
  adapter : BitSetCollection (List (Nat × V))
  iter : List Nat
  out : List Nat

/-- One interleaving step. `next` pops the iterator's own element list;
`ins` / `rem` apply the adapter operation (when it succeeds). Because
`keys()` in the source iterates `self.bitset.clone()`, adapter mutations
never touch the in-flight iterator's elements. -/
def iterStep {V : Type} [Inhabited V] (s : IterRun V) : IterOp V → IterRun V
  | .next =>
    match s.iter with
    | [] => s
    | n :: rest => ⟨s.adapter, rest, s.out ++ [n]⟩
  | .ins k v =>
    match BitSetCollection.insert (mapOps V) usizeToU32 s.adapter k v with
    | .ok r => ⟨r.2, s.iter, s.out⟩
    | .error _ => s
  | .rem k =>
    match BitSetCollection.remove (mapOps V) usizeToU32 s.adapter k with
    | .ok r => ⟨r.2, s.iter, s.out⟩
    | .error _ => s

/-- Run a whole event list. -/
def iterRunAll {V : Type} [Inhabited V] (s : IterRun V)
    (ops : List (IterOp V)) : IterRun V :=
  ops.foldl iterStep s

/-- Creating the key sequence: `keys()` iterates a clone of the presence
index taken at call time. -/
def mkKeyIter {V : Type} (a : BitSetCollection (List (Nat × V))) : List Nat :=
  a.bitset

/-- The formal rendering of claim C10: for some adapter, some partial
consumption `pre`, some insert or remove mutation `mut` and some further
consumption `post`, the elements the in-flight sequence produces with the
mutation differ from those it produces without it. -/
def c10LiveViewClaim : Prop :=
  ∃ (a : BitSetCollection (List (Nat × Nat))) (pre post : List (IterOp Nat))
    (mo : IterOp Nat),
    mo ≠ IterOp.next ∧
    (iterRunAll ⟨a, mkKeyIter a, []⟩ (pre ++ mo :: post)).out ≠
      (iterRunAll ⟨a, mkKeyIter a, []⟩ (pre ++ post)).out

/-! ### Lemmas about the bit-set model -/

theorem mem_bitsetAdd {n m : Nat} : ∀ {l : List Nat},
    (m ∈ bitsetAdd n l ↔ m = n ∨ m ∈ l) := by
  intro l
  induction l with
  | nil => simp [bitsetAdd]
  | cons a rest ih =>
    by_cases h1 : n < a
    · simp [bitsetAdd, h1]
    · by_cases h2 : n = a
      · subst h2
        simp [bitsetAdd, h1]
      · simp [bitsetAdd, h1, h2, ih]
        tauto

theorem bitsetAdd_pairwise {n : Nat} : ∀ {l : List Nat},
    l.Pairwise (· < ·) → (bitsetAdd n l).Pairwise (· < ·) := by
  intro l
  induction l with
  | nil => intro _; simp [bitsetAdd]
  | cons a rest ih =>
    intro hp
    rw [List.pairwise_cons] at hp
    by_cases h1 : n < a
    · simp only [bitsetAdd, if_pos h1]
      refine List.Pairwise.cons ?_ (List.Pairwise.cons hp.1 hp.2)
      intro b hb
      rcases List.mem_cons.mp hb with rfl | hb
      · exact h1
      · exact h1.trans (hp.1 b hb)
    · by_cases h2 : n = a
      · subst h2
        simp only [bitsetAdd, if_neg h1, if_pos rfl]
        exact List.Pairwise.cons hp.1 hp.2
      · have han : a < n := by omega
        simp only [bitsetAdd, if_neg h1, if_neg h2]
        refine List.Pairwise.cons ?_ (ih hp.2)
        intro b hb
        rcases mem_bitsetAdd.mp hb with rfl | hb
        · exact han
        · exact hp.1 b hb

theorem mem_bitsetRemove {n m : Nat} {l : List Nat} :
    m ∈ bitsetRemove n l ↔ m ∈ l ∧ m ≠ n := by
  simp [bitsetRemove]

theorem bitsetRemove_pairwise {n : Nat} {l : List Nat}
    (h : l.Pairwise (· < ·)) : (bitsetRemove n l).Pairwise (· < ·) :=
  h.filter _

theorem bitsetRemove_of_not_mem {n : Nat} : ∀ {l : List Nat},
    n ∉ l → bitsetRemove n l = l := by
  intro l
  induction l with
  | nil => intro _; rfl
  | cons a rest ih =>
    intro h
    have ha : a ≠ n := fun e => h (e ▸ List.mem_cons_self a rest)
    have hrest : n ∉ rest := fun e => h (List.mem_cons_of_mem a e)
    simp [bitsetRemove, ha] at ih ⊢
    exact ih hrest

theorem bitsetFromList_spec : ∀ (l init : List Nat),
    (∀ m, m ∈ l.foldl (fun s n => bitsetAdd n s) init ↔ m ∈ init ∨ m ∈ l) ∧
      (init.Pairwise (· < ·) →
        (l.foldl (fun s n => bitsetAdd n s) init).Pairwise (· < ·)) := by
  intro l
  induction l with
  | nil => intro init; simp
  | cons a rest ih =>
    intro init
    constructor
    · intro m
      rw [List.foldl_cons, (ih (bitsetAdd a init)).1 m, mem_bitsetAdd]
      simp
      tauto
    · intro hp
      rw [List.foldl_cons]
      exact (ih (bitsetAdd a init)).2 (bitsetAdd_pairwise hp)

theorem mem_bitsetFromList {m : Nat} {l : List Nat} :
    m ∈ bitsetFromList l ↔ m ∈ l := by
  rw [bitsetFromList, (bitsetFromList_spec l []).1 m]
  simp

theorem bitsetFromList_pairwise {l : List Nat} :
    (bitsetFromList l).Pairwise (· < ·) :=
  (bitsetFromList_spec l []).2 (List.Pairwise.nil)

theorem bitsetContains_iff {n : Nat} {l : List Nat} :
    bitsetContains n l = true ↔ n ∈ l := by
  simp [bitsetContains]

/-- Two strictly ascending lists with the same members are equal. -/
theorem sorted_eq_of_mem_iff : ∀ {l1 l2 : List Nat},
    l1.Pairwise (· < ·) → l2.Pairwise (· < ·) →
    (∀ n, n ∈ l1 ↔ n ∈ l2) → l1 = l2 := by
  intro l1
  induction l1 with
  | nil =>
    intro l2 _ _ hm
    cases l2 with
    | nil => rfl
    | cons b t2 => exact absurd ((hm b).mpr (List.mem_cons_self b t2)) (by simp)
  | cons a t1 ih =>
    intro l2 hp1 hp2 hm
    cases l2 with
    | nil => exact absurd ((hm a).mp (List.mem_cons_self a t1)) (by simp)
    | cons b t2 =>
      rw [List.pairwise_cons] at hp1 hp2
      have hab : a = b := by
        rcases List.mem_cons.mp ((hm a).mp (List.mem_cons_self a t1)) with h | h
        · exact h
        · rcases List.mem_cons.mp ((hm b).mpr (List.mem_cons_self b t2)) with h' | h'
          · exact h'.symm
          · exact absurd (Nat.lt_trans (hp1.1 b h') (hp2.1 a h)) (Nat.lt_irrefl a)
      subst hab
      have htail : ∀ n, n ∈ t1 ↔ n ∈ t2 := by
        intro n
        constructor
        · intro hn
          rcases List.mem_cons.mp ((hm n).mp (List.mem_cons_of_mem a hn)) with h | h
          · exact absurd (h ▸ hp1.1 n hn) (Nat.lt_irrefl a)
          · exact h
        · intro hn
          rcases List.mem_cons.mp ((hm n).mpr (List.mem_cons_of_mem a hn)) with h | h
          · exact absurd (h ▸ hp2.1 n hn) (Nat.lt_irrefl a)
          · exact h
      rw [ih hp1.2 hp2.2 htail]

/-! ### Lemmas about `tryConvert` -/

theorem tryConvert_forall₂ {A B : Type} {f : A → Option B} :
    ∀ {l : List A} {r : List B},
    (tryConvert f l = some r ↔ List.Forall₂ (fun x y => f x = some y) l r) := by
  intro l
  induction l with
  | nil =>
    intro r
    constructor
    · intro h
      simp [tryConvert] at h
      subst h
      exact List.Forall₂.nil
    · intro h
      cases h
      rfl
  | cons x rest ih =>
    intro r
    constructor
    · intro h
      simp only [tryConvert] at h
      cases hfx : f x with
      | none => rw [hfx] at h; exact absurd h (by simp)
      | some y =>
        rw [hfx] at h
        cases hrest : tryConvert f rest with
        | none => rw [hrest] at h; exact absurd h (by simp)
        | some ys =>
          rw [hrest] at h
          simp at h
          subst h
          exact List.Forall₂.cons hfx (ih.mp hrest)
    · intro h
      cases h with
      | cons hfx hrest =>
        simp only [tryConvert, hfx, ih.mpr hrest, Option.map]

theorem tryConvert_none_of_mem {A B : Type} {f : A → Option B} :
    ∀ {l : List A}, (∃ x ∈ l, f x = none) → tryConvert f l = none := by
  intro l
  induction l with
  | nil => rintro ⟨x, hx, _⟩; exact absurd hx (by simp)
  | cons a rest ih =>
    rintro ⟨x, hx, hfx⟩
    rcases List.mem_cons.mp hx with rfl | hx
    · simp [tryConvert, hfx]
    · simp only [tryConvert]
      cases hfa : f a with
      | none => rfl
      | some y => rw [ih ⟨x, hx, hfx⟩]; rfl

theorem tryConvert_id_of {f : Nat → Option Nat} : ∀ {l : List Nat},
    (∀ x ∈ l, f x = some x) → tryConvert f l = some l := by
  intro l
  induction l with
  | nil => intro _; rfl
  | cons a rest ih =>
    intro h
    have ha := h a (List.mem_cons_self a rest)
    have hrest := ih fun x hx => h x (List.mem_cons_of_mem a hx)
    simp [tryConvert, ha, hrest]

theorem tryConvert_u32ToUsize {l : List Nat} :
    tryConvert u32ToUsize l = some l :=
  tryConvert_id_of fun _ _ => rfl

theorem usizeToU32_eq_some {k kk : Nat} (h : usizeToU32 k = some kk) : kk = k := by
  by_cases hk : k < 4294967296
  · simp [usizeToU32, hk] at h
    exact h.symm
  · simp [usizeToU32, hk] at h

/-! ### Lemmas about the map backend model -/

theorem mapInsert_fst {V : Type} {k : Nat} {v : V} : ∀ {m : List (Nat × V)},
    (mapInsert m k v).1 = mapGet m k := by
  intro m
  induction m with
  | nil => rfl
  | cons p rest ih =>
    by_cases h : p.1 = k
    · simp [mapInsert, mapGet, h]
    · simp [mapInsert, mapGet, h, ih]

theorem mapGet_insert_self {V : Type} {k : Nat} {v : V} : ∀ {m : List (Nat × V)},
    mapGet (mapInsert m k v).2 k = some v := by
  intro m
  induction m with
  | nil => simp [mapInsert, mapGet]
  | cons p rest ih =>
    by_cases h : p.1 = k
    · simp [mapInsert, mapGet, h]
    · simp [mapInsert, mapGet, h, ih]

theorem mapGet_insert_ne {V : Type} {k n : Nat} {v : V} (hne : n ≠ k) :
    ∀ {m : List (Nat × V)}, mapGet (mapInsert m k v).2 n = mapGet m n := by
  intro m
  induction m with
  | nil => simp [mapInsert, mapGet, hne.symm]
  | cons p rest ih =>
    by_cases h : p.1 = k
    · subst h
      simp [mapInsert, mapGet, hne.symm]
    · simp only [mapInsert, if_neg h]
      by_cases h2 : p.1 = n
      · simp [mapGet, h2]
      · simp [mapGet, h2, ih]

theorem mapRemove_fst {V : Type} {k : Nat} {m : List (Nat × V)} :
    (mapRemove m k).1 = mapGet m k :=
  rfl

theorem mapGet_remove_self {V : Type} {k : Nat} : ∀ {m : List (Nat × V)},
    mapGet (mapRemove m k).2 k = none := by
  intro m
  induction m with
  | nil => rfl
  | cons p rest ih =>
    simp only [mapRemove] at ih ⊢
    rw [List.filter_cons]
    by_cases h : p.1 = k
    · simp [h, ih]
    · simp [h, mapGet, ih]

theorem mapGet_remove_ne {V : Type} {k n : Nat} (hne : n ≠ k) :
    ∀ {m : List (Nat × V)}, mapGet (mapRemove m k).2 n = mapGet m n := by
  intro m
  induction m with
  | nil => rfl
  | cons p rest ih =>
    simp only [mapRemove] at ih ⊢
    rw [List.filter_cons]
    by_cases h : p.1 = k
    · subst h
      simp [mapGet, hne.symm, ih]
    · by_cases h2 : p.1 = n
      · simp [h, mapGet, h2, hne]
      · simp [h, mapGet, h2, ih]

theorem mapRemove_of_get_none {V : Type} {k : Nat} : ∀ {m : List (Nat × V)},
    mapGet m k = none → mapRemove m k = (none, m) := by
  intro m
  induction m with
  | nil => intro _; rfl
  | cons p rest ih =>
    intro h
    by_cases hp : p.1 = k
    · rw [mapGet, if_pos hp] at h
      exact absurd h (by simp)
    · rw [mapGet, if_neg hp] at h
      have htail := congrArg Prod.snd (ih h)
      simp only [mapRemove] at htail ⊢
      rw [List.filter_cons]
      simp [mapGet, hp, h, htail]

theorem mem_mapKeys_iff {V : Type} {n : Nat} : ∀ {m : List (Nat × V)},
    n ∈ mapKeys m ↔ (mapGet m n).isSome := by
  intro m
  induction m with
  | nil => simp [mapKeys, mapGet]
  | cons p rest ih =>
    by_cases h : p.1 = n
    · simp [mapKeys, mapGet, h]
    · simp only [mapKeys, List.map_cons, List.mem_cons, mapGet, if_neg h]
      rw [← mapKeys]
      constructor
      · intro hc
        rcases hc with hc | hc
        · exact absurd hc.symm h
        · exact ih.mp hc
      · intro hc
        exact Or.inr (ih.mpr hc)

/-! ### Inversion lemmas for the adapter's operations at usize keys -/

theorem tryConvert_usizeToU32_eq {l ns : List Nat}
    (h : tryConvert usizeToU32 l = some ns) : ns = l := by
  have h2 := tryConvert_forall₂.mp h
  clear h
  induction h2 with
  | nil => rfl
  | cons hxy _ ih => simp [ih, usizeToU32_eq_some hxy]

theorem new_ok_inv {V C : Type} {inst : CollectionOps Nat V C} {c : C}
    {a : BitSetCollection C}
    (h : BitSetCollection.new inst usizeToU32 c = .ok a) :
    a = ⟨bitsetFromList (inst.keys c), c⟩ := by
  unfold BitSetCollection.new at h
  cases hconv : tryConvert usizeToU32 (inst.keys c) with
  | none => rw [hconv] at h; exact absurd h (by simp)
  | some ns =>
    rw [hconv] at h
    simp at h
    rw [← h, tryConvert_usizeToU32_eq hconv]

theorem insert_ok_inv {V C : Type} {inst : CollectionOps Nat V C}
    {a : BitSetCollection C} {k : Nat} {v : V} {r : Option V}
    {a' : BitSetCollection C}
    (h : BitSetCollection.insert inst usizeToU32 a k v = .ok (r, a')) :
    k < 4294967296 ∧ r = (inst.insert a.collection k v).1 ∧
      a' = ⟨bitsetAdd k a.bitset, (inst.insert a.collection k v).2⟩ := by
  by_cases hk : k < 4294967296
  · refine ⟨hk, ?_⟩
    simp [BitSetCollection.insert, usizeToU32, hk] at h
    exact ⟨h.1.symm, h.2.symm⟩
  · simp [BitSetCollection.insert, usizeToU32, hk] at h

theorem remove_ok_inv {V C : Type} {inst : CollectionOps Nat V C}
    {a : BitSetCollection C} {k : Nat} {r : Option V}
    {a' : BitSetCollection C}
    (h : BitSetCollection.remove inst usizeToU32 a k = .ok (r, a')) :
    k < 4294967296 ∧ r = (inst.remove a.collection k).1 ∧
      a' = ⟨bitsetRemove k a.bitset, (inst.remove a.collection k).2⟩ := by
  by_cases hk : k < 4294967296
  · refine ⟨hk, ?_⟩
    simp [BitSetCollection.remove, usizeToU32, hk] at h
    exact ⟨h.1.symm, h.2.symm⟩
  · simp [BitSetCollection.remove, usizeToU32, hk] at h

/-! ### The reachability invariant for the map backend: the presence index's
membership coincides with the keys retrievable from the map. -/

theorem reachable_map_inv {V : Type} [Inhabited V]
    {a : BitSetCollection (List (Nat × V))}
    (h : BitSetCollection.Reachable (mapOps V) usizeToU32 [] a) :
    ∀ n : Nat, bitsetContains n a.bitset = mapContains a.collection n := by
  induction h with
  | empty => intro n; rfl
  | fromNew c a hnew =>
    intro n
    rw [new_ok_inv hnew]
    rw [Bool.eq_iff_iff]
    simp only [bitsetContains_iff, mem_bitsetFromList]
    show n ∈ mapKeys c ↔ mapContains c n = true
    rw [mem_mapKeys_iff, mapContains]
  | insStep a k v r a' _ hins ih =>
    intro n
    obtain ⟨hk, _, ha'⟩ := insert_ok_inv hins
    subst ha'
    by_cases hn : n = k
    · subst hn
      rw [Bool.eq_iff_iff]
      simp only [bitsetContains_iff, mem_bitsetAdd]
      show _ ↔ mapContains (mapInsert a.collection n v).2 n = true
      simp [mapContains, mapGet_insert_self]
    · rw [Bool.eq_iff_iff]
      simp only [bitsetContains_iff, mem_bitsetAdd]
      show _ ↔ mapContains (mapInsert a.collection k v).2 n = true
      simp only [mapContains, mapGet_insert_ne hn]
      rw [← mapContains, ← ih n, bitsetContains_iff]
      simp [hn]
  | remStep a k r a' _ hrem ih =>
    intro n
    obtain ⟨hk, _, ha'⟩ := remove_ok_inv hrem
    subst ha'
    by_cases hn : n = k
    · subst hn
      rw [Bool.eq_iff_iff]
      simp only [bitsetContains_iff, mem_bitsetRemove]
      show _ ↔ mapContains (mapRemove a.collection n).2 n = true
      simp [mapContains, mapGet_remove_self]
    · rw [Bool.eq_iff_iff]
      simp only [bitsetContains_iff, mem_bitsetRemove]
      show _ ↔ mapContains (mapRemove a.collection k).2 n = true
      simp only [mapContains, mapGet_remove_ne hn]
      rw [← mapContains, ← ih n, bitsetContains_iff]
      simp [hn]

/-! ### Generic inversion lemmas and the sortedness invariant -/

theorem gen_insert_ok_inv {K V C : Type} {inst : CollectionOps K V C}
    {toU32 : K → Option Nat} {a : BitSetCollection C} {k : K} {v : V}
    {r : Option V} {a' : BitSetCollection C}
    (h : BitSetCollection.insert inst toU32 a k v = .ok (r, a')) :
    ∃ kk, toU32 k = some kk ∧ r = (inst.insert a.collection k v).1 ∧
      a' = ⟨bitsetAdd kk a.bitset, (inst.insert a.collection k v).2⟩ := by
  cases hk : toU32 k with
  | none => simp [BitSetCollection.insert, hk] at h
  | some kk =>
    simp [BitSetCollection.insert, hk] at h
    exact ⟨kk, rfl, h.1.symm, h.2.symm⟩

theorem gen_remove_ok_inv {K V C : Type} {inst : CollectionOps K V C}
    {toU32 : K → Option Nat} {a : BitSetCollection C} {k : K}
    {r : Option V} {a' : BitSetCollection C}
    (h : BitSetCollection.remove inst toU32 a k = .ok (r, a')) :
    ∃ kk, toU32 k = some kk ∧ r = (inst.remove a.collection k).1 ∧
      a' = ⟨bitsetRemove kk a.bitset, (inst.remove a.collection k).2⟩ := by
  cases hk : toU32 k with
  | none => simp [BitSetCollection.remove, hk] at h
  | some kk =>
    simp [BitSetCollection.remove, hk] at h
    exact ⟨kk, rfl, h.1.symm, h.2.symm⟩

theorem gen_new_ok_inv {K V C : Type} {inst : CollectionOps K V C}
    {toU32 : K → Option Nat} {c : C} {a : BitSetCollection C}
    (h : BitSetCollection.new inst toU32 c = .ok a) :
    ∃ ns, tryConvert toU32 (inst.keys c) = some ns ∧
      a = ⟨bitsetFromList ns, c⟩ := by
  cases hconv : tryConvert toU32 (inst.keys c) with
  | none => simp [BitSetCollection.new, hconv] at h
  | some ns =>
    simp [BitSetCollection.new, hconv] at h
    exact ⟨ns, rfl, h.symm⟩

/-- Every reachable adapter state keeps its presence index strictly
ascending. -/
theorem reachable_bitset_pairwise {K V C : Type} {inst : CollectionOps K V C}
    {toU32 : K → Option Nat} {dfl : C} {a : BitSetCollection C}
    (h : BitSetCollection.Reachable inst toU32 dfl a) :
    a.bitset.Pairwise (· < ·) := by
  induction h with
  | empty => exact List.Pairwise.nil
  | fromNew c a hnew =>
    obtain ⟨ns, _, ha⟩ := gen_new_ok_inv hnew
    rw [ha]
    exact bitsetFromList_pairwise
  | insStep a k v r a' _ hins ih =>
    obtain ⟨kk, _, _, ha'⟩ := gen_insert_ok_inv hins
    rw [ha']
    exact bitsetAdd_pairwise ih
  | remStep a k r a' _ hrem ih =>
    obtain ⟨kk, _, _, ha'⟩ := gen_remove_ok_inv hrem
    rw [ha']
    exact bitsetRemove_pairwise ih

theorem forall₂_conv_mem_iff {A B : Type} {f : A → Option B} {l : List A}
    {r : List B} (h : List.Forall₂ (fun x y => f x = some y) l r) (n : B) :
    n ∈ r ↔ ∃ x ∈ l, f x = some n := by
  induction h with
  | nil => simp
  | @cons x y l' r' hxy _ ih =>
    simp only [List.mem_cons]
    constructor
    · rintro (rfl | hn)
      · exact ⟨x, Or.inl rfl, hxy⟩
      · obtain ⟨x', hx', hfx'⟩ := ih.mp hn
        exact ⟨x', Or.inr hx', hfx'⟩
    · rintro ⟨x', (rfl | hx'), hfx'⟩
      · exact Or.inl (Option.some.inj (hxy.symm.trans hfx')).symm
      · exact Or.inr (ih.mpr ⟨x', hx', hfx'⟩)

/-! ### Claim theorems -/

/-- Claim C3: for every adapter, in-range key `k` and value `v`, `insert`
first adds `k`'s 32-bit form to the presence index unconditionally, then
delegates to the backing container's insert and returns that result; after
the call `contains_key k` is true whatever the container did with the
value (the container `inst` is arbitrary here). -/
theorem c3_insert_index_first_then_delegate {K V C : Type}
    (inst : CollectionOps K V C) (toU32 : K → Option Nat)
    (a : BitSetCollection C) (k : K) (v : V) (kk : Nat)
    (hk : toU32 k = some kk) :
    BitSetCollection.insert inst toU32 a k v =
      .ok ((inst.insert a.collection k v).1,
        ⟨bitsetAdd kk a.bitset, (inst.insert a.collection k v).2⟩) ∧
    BitSetCollection.contains_key toU32
      ⟨bitsetAdd kk a.bitset, (inst.insert a.collection k v).2⟩ k = .ok true := by
  constructor
  · simp [BitSetCollection.insert, hk]
  · simp only [BitSetCollection.contains_key, hk]
    have : bitsetContains kk (bitsetAdd kk a.bitset) = true := by
      simp [bitsetContains, mem_bitsetAdd]
    rw [this]

/-- Witness for C3 at the map backend: inserting key 5 with value 7 into the
empty adapter adds 5 to the index, delegates, and reports the key present. -/
theorem c3_witness :
    BitSetCollection.insert (mapOps Nat) usizeToU32
        (⟨[], []⟩ : BitSetCollection (List (Nat × Nat))) 5 7 =
      .ok (none, ⟨[5], [(5, 7)]⟩) ∧
    BitSetCollection.contains_key usizeToU32
      (⟨[5], [(5, 7)]⟩ : BitSetCollection (List (Nat × Nat))) 5 = .ok true :=
  c3_insert_index_first_then_delegate (mapOps Nat) usizeToU32 ⟨[], []⟩ 5 7 5 rfl

/-- Claim C4: for every reachable adapter over any backend, the key sequence
produced by `keys()` is a finite list whose elements stand in one-to-one
order-preserving correspondence with the presence index's strictly ascending
integer list: the integers are pairwise increasing and each produced key is
the back-conversion of its integer. -/
theorem c4_keys_ascending {K V C : Type} (inst : CollectionOps K V C)
    (toU32 : K → Option Nat) (fromU32 : Nat → Option K) (dfl : C)
    (a : BitSetCollection C) (ks : List K)
    (hr : BitSetCollection.Reachable inst toU32 dfl a)
    (hks : BitSetCollection.keys fromU32 a = .ok ks) :
    a.bitset.Pairwise (· < ·) ∧
      List.Forall₂ (fun n k => fromU32 n = some k) a.bitset ks := by
  refine ⟨reachable_bitset_pairwise hr, ?_⟩
  cases hconv : tryConvert fromU32 a.bitset with
  | none => simp [BitSetCollection.keys, hconv] at hks
  | some ks' =>
    simp [BitSetCollection.keys, hconv] at hks
    rw [← hks]
    exact tryConvert_forall₂.mp hconv

/-- Witness for C4: the adapter `{2 ↦ 10}` (reached by one insert from the
empty map adapter) lists its keys as `[2]`, ascending. -/
theorem c4_witness :
    (⟨[2], [(2, 10)]⟩ : BitSetCollection (List (Nat × Nat))).bitset.Pairwise
        (· < ·) ∧
      List.Forall₂ (fun n k => u32ToUsize n = some k)
        (⟨[2], [(2, 10)]⟩ : BitSetCollection (List (Nat × Nat))).bitset [2] :=
  c4_keys_ascending (mapOps Nat) usizeToU32 u32ToUsize [] ⟨[2], [(2, 10)]⟩ [2]
    (BitSetCollection.Reachable.insStep ⟨[], []⟩ 2 10 none ⟨[2], [(2, 10)]⟩
      BitSetCollection.Reachable.empty rfl) rfl

/-- Claim C8: for a key whose conversion to `u32` fails, `get`, `insert`,
`remove` and `contains_key` all signal the fatal `KeyRangeError` and produce
no successor state, so the presence index is left unchanged by the failed
operation. -/
theorem c8_key_range_fatal {K V C : Type} (inst : CollectionOps K V C)
    (toU32 : K → Option Nat) (a : BitSetCollection C) (k : K) (v : V)
    (hk : toU32 k = none) :
    BitSetCollection.get inst toU32 a k = .error .keyRange ∧
    BitSetCollection.insert inst toU32 a k v = .error .keyRange ∧
    BitSetCollection.remove inst toU32 a k = .error .keyRange ∧
    BitSetCollection.contains_key toU32 a k = .error .keyRange := by
  refine ⟨?_, ?_, ?_, ?_⟩ <;>
    simp [BitSetCollection.get, BitSetCollection.insert,
      BitSetCollection.remove, BitSetCollection.contains_key, hk]

/-- Witness for C8: the key `2^32` is out of `u32` range on a 64-bit
platform, and every adapter operation on it faults. -/
theorem c8_witness :
    BitSetCollection.get (mapOps Nat) usizeToU32
        (⟨[2], [(2, 7)]⟩ : BitSetCollection (List (Nat × Nat))) 4294967296 =
      .error .keyRange ∧
    BitSetCollection.insert (mapOps Nat) usizeToU32 ⟨[2], [(2, 7)]⟩ 4294967296 0 =
      .error .keyRange ∧
    BitSetCollection.remove (mapOps Nat) usizeToU32 ⟨[2], [(2, 7)]⟩ 4294967296 =
      .error .keyRange ∧
    BitSetCollection.contains_key usizeToU32
      (⟨[2], [(2, 7)]⟩ : BitSetCollection (List (Nat × Nat))) 4294967296 =
      .error .keyRange :=
  c8_key_range_fatal (mapOps Nat) usizeToU32 ⟨[2], [(2, 7)]⟩ 4294967296 0 rfl

/-- `keys` with the infallible `u32 -> usize` back-conversion always
succeeds and returns exactly the presence index's ascending element list. -/
theorem keys_u32ToUsize {C : Type} (a : BitSetCollection C) :
    BitSetCollection.keys u32ToUsize a = .ok a.bitset := by
  simp [BitSetCollection.keys, tryConvert_u32ToUsize]

/-- Claim C1: on every adapter reachable by insert/remove sequences from an
empty or newly constructed state, and every in-range key `k`,
`contains_key k` is true iff `get k` returns `Some`, and iff `k` appears in
the output of `keys()` (stated at `usize` keys, over an arbitrary backing
container `inst`). -/
theorem c1_presence_consistency {V C : Type} (inst : CollectionOps Nat V C)
    (dfl : C) (a : BitSetCollection C) (k kk : Nat)
    (hr : BitSetCollection.Reachable inst usizeToU32 dfl a)
    (hk : usizeToU32 k = some kk) :
    (BitSetCollection.contains_key usizeToU32 a k = .ok true ↔
      ∃ v, BitSetCollection.get inst usizeToU32 a k = .ok (some v)) ∧
    (BitSetCollection.contains_key usizeToU32 a k = .ok true ↔
      ∃ ks, BitSetCollection.keys u32ToUsize a = .ok ks ∧ k ∈ ks) := by
  obtain rfl := usizeToU32_eq_some hk
  constructor
  · constructor
    · intro hc
      have hb : bitsetContains kk a.bitset = true := by
        simp [BitSetCollection.contains_key, hk] at hc
        exact hc
      exact ⟨inst.get_unchecked a.collection kk, by
        simp [BitSetCollection.get, hk, hb]⟩
    · rintro ⟨v, hv⟩
      simp only [BitSetCollection.contains_key, hk]
      cases hb : bitsetContains kk a.bitset with
      | true => rfl
      | false => simp [BitSetCollection.get, hk, hb] at hv
  · rw [keys_u32ToUsize a]
    simp only [BitSetCollection.contains_key, hk]
    constructor
    · intro hc
      simp at hc
      exact ⟨a.bitset, rfl, by rwa [← bitsetContains_iff]⟩
    · rintro ⟨ks, hks, hmem⟩
      simp at hks
      subst hks
      simp [bitsetContains_iff.mpr hmem]

/-- Witness for C1: on the reachable adapter `{2 ↦ 10}` over the map
backend, the three presence views agree for key 2. -/
theorem c1_witness :
    (BitSetCollection.contains_key usizeToU32
        (⟨[2], [(2, 10)]⟩ : BitSetCollection (List (Nat × Nat))) 2 = .ok true ↔
      ∃ v, BitSetCollection.get (mapOps Nat) usizeToU32 ⟨[2], [(2, 10)]⟩ 2 =
        .ok (some v)) ∧
    (BitSetCollection.contains_key usizeToU32
        (⟨[2], [(2, 10)]⟩ : BitSetCollection (List (Nat × Nat))) 2 = .ok true ↔
      ∃ ks, BitSetCollection.keys u32ToUsize
          (⟨[2], [(2, 10)]⟩ : BitSetCollection (List (Nat × Nat))) = .ok ks ∧
        2 ∈ ks) :=
  c1_presence_consistency (mapOps Nat) [] ⟨[2], [(2, 10)]⟩ 2 2
    (BitSetCollection.Reachable.insStep ⟨[], []⟩ 2 10 none ⟨[2], [(2, 10)]⟩
      BitSetCollection.Reachable.empty rfl) rfl

/-- Claim C2: `get` on an in-range key whose integer form is missing from
the presence index answers `None` for every possible backing container
(so the container is never consulted); and on a reachable adapter over the
conforming map backend, whenever `get` answers `Some` the container really
holds a value for the key, so the unchecked fast path never sees an absent
key. -/
theorem c2_get_gated_by_index {V C : Type} [Inhabited V]
    (inst : CollectionOps Nat V C) (bs : List Nat)
    (a : BitSetCollection (List (Nat × V))) (k kk : Nat)
    (hk : usizeToU32 k = some kk) :
    (bitsetContains kk bs = false →
      ∀ c : C, BitSetCollection.get inst usizeToU32 ⟨bs, c⟩ k = .ok none) ∧
    (BitSetCollection.Reachable (mapOps V) usizeToU32 [] a →
      ∀ v : V, BitSetCollection.get (mapOps V) usizeToU32 a k = .ok (some v) →
        mapContains a.collection k = true) := by
  obtain rfl := usizeToU32_eq_some hk
  constructor
  · intro hb c
    simp [BitSetCollection.get, hk, hb]
  · intro hr v hv
    rw [← reachable_map_inv hr kk]
    cases hb : bitsetContains kk a.bitset with
    | true => rfl
    | false => simp [BitSetCollection.get, hk, hb] at hv

/-- Witness for C2 at key 2: with 2 absent from the index, `get` is `None`
over every container; and on the reachable adapter `{2 ↦ 10}`, a `Some`
answer means the map holds the key. -/
theorem c2_witness :
    (bitsetContains 2 [] = false →
      ∀ c : List (Nat × Nat), BitSetCollection.get (mapOps Nat) usizeToU32
        ⟨[], c⟩ 2 = .ok none) ∧
    (BitSetCollection.Reachable (mapOps Nat) usizeToU32 []
        (⟨[2], [(2, 10)]⟩ : BitSetCollection (List (Nat × Nat))) →
      ∀ v : Nat, BitSetCollection.get (mapOps Nat) usizeToU32
          ⟨[2], [(2, 10)]⟩ 2 = .ok (some v) →
        mapContains ((⟨[2], [(2, 10)]⟩ :
          BitSetCollection (List (Nat × Nat))).collection) 2 = true) :=
  c2_get_gated_by_index (mapOps Nat) [] ⟨[2], [(2, 10)]⟩ 2 2 rfl

/-- Claim C7: removing an in-range key that is not currently present from a
reachable adapter over the map backend returns `None` and leaves both the
presence index and the backing container unchanged. -/
theorem c7_remove_absent_noop {V : Type} [Inhabited V]
    (a : BitSetCollection (List (Nat × V))) (k kk : Nat)
    (hr : BitSetCollection.Reachable (mapOps V) usizeToU32 [] a)
    (hk : usizeToU32 k = some kk)
    (hc : BitSetCollection.contains_key usizeToU32 a k = .ok false) :
    BitSetCollection.remove (mapOps V) usizeToU32 a k = .ok (none, a) := by
  obtain rfl := usizeToU32_eq_some hk
  have hb : bitsetContains kk a.bitset = false := by
    simp [BitSetCollection.contains_key, hk] at hc
    exact hc
  have hnotmem : kk ∉ a.bitset := by
    simpa [bitsetContains] using hb
  have hmap : mapContains a.collection kk = false := by
    rw [← reachable_map_inv hr kk]
    exact hb
  have hget : mapGet a.collection kk = none := by
    cases hg : mapGet a.collection kk with
    | none => rfl
    | some v => rw [mapContains, hg] at hmap; exact absurd hmap (by simp)
  have hrem := mapRemove_of_get_none hget
  simp only [BitSetCollection.remove, hk, mapOps]
  rw [hrem, bitsetRemove_of_not_mem hnotmem]

/-- Witness for C7: removing the absent key 3 from the reachable adapter
`{2 ↦ 10}` returns `None` and does not change the state. -/
theorem c7_witness :
    BitSetCollection.remove (mapOps Nat) usizeToU32
        (⟨[2], [(2, 10)]⟩ : BitSetCollection (List (Nat × Nat))) 3 =
      .ok (none, ⟨[2], [(2, 10)]⟩) :=
  c7_remove_absent_noop ⟨[2], [(2, 10)]⟩ 3 3
    (BitSetCollection.Reachable.insStep ⟨[], []⟩ 2 10 none ⟨[2], [(2, 10)]⟩
      BitSetCollection.Reachable.empty rfl) rfl rfl

/-- Claim C9: a successful `new c` yields an adapter whose container is `c`
itself (taken by value) and whose presence index holds exactly the 32-bit
forms of the keys `c` reports; and if any key's conversion fails, `new`
signals the fatal `KeyRangeError`. -/
theorem c9_new_scans_container_keys {K V C : Type} (inst : CollectionOps K V C)
    (toU32 : K → Option Nat) (c : C) :
    (∀ a : BitSetCollection C, BitSetCollection.new inst toU32 c = .ok a →
      a.collection = c ∧
        ∀ n : Nat, (bitsetContains n a.bitset = true ↔
          ∃ k ∈ inst.keys c, toU32 k = some n)) ∧
    ((∃ k ∈ inst.keys c, toU32 k = none) →
      BitSetCollection.new inst toU32 c = .error .keyRange) := by
  constructor
  · intro a ha
    obtain ⟨ns, hconv, ha⟩ := gen_new_ok_inv ha
    subst ha
    refine ⟨rfl, ?_⟩
    intro n
    rw [bitsetContains_iff, mem_bitsetFromList]
    exact forall₂_conv_mem_iff (tryConvert_forall₂.mp hconv) n
  · intro hex
    simp [BitSetCollection.new, tryConvert_none_of_mem hex]

/-- Witness for C9: building from the one-entry map `{3 ↦ 5}` indexes
exactly key 3 and keeps the map; building from a map keyed by `2^32`
faults. -/
theorem c9_witness :
    ((⟨[3], [(3, 5)]⟩ :
        BitSetCollection (List (Nat × Nat))).collection = [(3, 5)] ∧
      ∀ n : Nat, (bitsetContains n
          (⟨[3], [(3, 5)]⟩ :
            BitSetCollection (List (Nat × Nat))).bitset = true ↔
        ∃ k ∈ (mapOps Nat).keys [(3, 5)], usizeToU32 k = some n)) ∧
    BitSetCollection.new (mapOps Nat) usizeToU32 [(4294967296, 9)] =
      .error .keyRange :=
  ⟨(c9_new_scans_container_keys (mapOps Nat) usizeToU32 [(3, 5)]).1
      ⟨[3], [(3, 5)]⟩ rfl,
    (c9_new_scans_container_keys (mapOps Nat) usizeToU32 [(4294967296, 9)]).2
      ⟨4294967296, by simp [mapOps, mapKeys], rfl⟩⟩

/-- Claim C6: on any adapter over the map backend, inserting `k ↦ v1` and
then `k ↦ v2` (distinct values) makes the second insert return `Some v1`,
after which `get k` retrieves only `v2`. -/
theorem c6_insert_overwrite {V : Type} [Inhabited V]
    (a a1 : BitSetCollection (List (Nat × V))) (k : Nat) (v1 v2 : V)
    (r1 : Option V) (hne : v1 ≠ v2)
    (h1 : BitSetCollection.insert (mapOps V) usizeToU32 a k v1 = .ok (r1, a1)) :
    ∃ a2, BitSetCollection.insert (mapOps V) usizeToU32 a1 k v2 =
        .ok (some v1, a2) ∧
      BitSetCollection.get (mapOps V) usizeToU32 a2 k = .ok (some v2) := by
  obtain ⟨hk, _, ha1⟩ := insert_ok_inv h1
  have hku : usizeToU32 k = some k := by simp [usizeToU32, hk]
  subst ha1
  refine ⟨⟨bitsetAdd k (bitsetAdd k a.bitset),
    (mapInsert (mapInsert a.collection k v1).2 k v2).2⟩, ?_, ?_⟩
  · simp only [BitSetCollection.insert, hku, mapOps]
    rw [mapInsert_fst, mapGet_insert_self]
  · have hb : bitsetContains k (bitsetAdd k (bitsetAdd k a.bitset)) = true := by
      simp [bitsetContains, mem_bitsetAdd]
    simp only [BitSetCollection.get, hku, hb, if_true, mapOps, mapGetUnchecked]
    rw [mapGet_insert_self]
    rfl

/-- Witness for C6: inserting 5 ↦ 1 then 5 ↦ 2 into the empty map adapter
returns `Some 1` on the second insert and then retrieves 2. -/
theorem c6_witness :
    ∃ a2, BitSetCollection.insert (mapOps Nat) usizeToU32
        (⟨[5], [(5, 1)]⟩ : BitSetCollection (List (Nat × Nat))) 5 2 =
        .ok (some 1, a2) ∧
      BitSetCollection.get (mapOps Nat) usizeToU32 a2 5 = .ok (some 2) :=
  c6_insert_overwrite ⟨[], []⟩ ⟨[5], [(5, 1)]⟩ 5 1 2 none (by decide) rfl

/-! ### Claim C5: `from_iter` versus the spec's insert-by-insert build -/

theorem specFromPairs_foldl {V : Type} [Inhabited V] :
    ∀ (ps : List (Nat × V)) (a0 : BitSetCollection (List (Nat × V))),
    (∀ p ∈ ps, p.1 < 4294967296) →
    ps.foldlM
        (fun a p =>
          (BitSetCollection.insert (mapOps V) usizeToU32 a p.1 p.2).map
            Prod.snd)
        a0 =
      Except.ok (ps.foldl specStep a0) := by
  intro ps
  induction ps with
  | nil => intro a0 _; rfl
  | cons p rest ih =>
    intro a0 hin
    have hku : usizeToU32 p.1 = some p.1 := by
      simp [usizeToU32, hin p (List.mem_cons_self p rest)]
    have hstep : (BitSetCollection.insert (mapOps V) usizeToU32 a0 p.1
        p.2).map Prod.snd = Except.ok (specStep a0 p) := by
      simp [BitSetCollection.insert, hku, specStep, mapOps, Except.map]
    rw [List.foldlM_cons, hstep, List.foldl_cons]
    exact ih (specStep a0 p) fun q hq => hin q (List.mem_cons_of_mem p hq)

theorem foldl_specStep_collection {V : Type} :
    ∀ (ps : List (Nat × V)) (a0 : BitSetCollection (List (Nat × V))),
    (ps.foldl specStep a0).collection =
      ps.foldl (fun c p => (mapInsert c p.1 p.2).2) a0.collection := by
  intro ps
  induction ps with
  | nil => intro a0; rfl
  | cons p rest ih =>
    intro a0
    rw [List.foldl_cons, List.foldl_cons, ih]
    rfl

theorem foldl_specStep_bitset {V : Type} :
    ∀ (ps : List (Nat × V)) (a0 : BitSetCollection (List (Nat × V))),
    (ps.foldl specStep a0).bitset =
      ps.foldl (fun bs p => bitsetAdd p.1 bs) a0.bitset := by
  intro ps
  induction ps with
  | nil => intro a0; rfl
  | cons p rest ih =>
    intro a0
    rw [List.foldl_cons, List.foldl_cons, ih]
    rfl

theorem mem_mapKeys_insert {V : Type} {n k : Nat} {v : V}
    {m : List (Nat × V)} :
    n ∈ mapKeys (mapInsert m k v).2 ↔ n = k ∨ n ∈ mapKeys m := by
  by_cases h : n = k
  · subst h
    simp [mem_mapKeys_iff, mapGet_insert_self]
  · simp [mem_mapKeys_iff, mapGet_insert_ne h, h]

theorem mem_mapKeys_foldl {V : Type} :
    ∀ (ps : List (Nat × V)) (m0 : List (Nat × V)) (n : Nat),
    (n ∈ mapKeys (ps.foldl (fun c p => (mapInsert c p.1 p.2).2) m0) ↔
      n ∈ mapKeys m0 ∨ ∃ p ∈ ps, p.1 = n) := by
  intro ps
  induction ps with
  | nil => intro m0 n; simp
  | cons p rest ih =>
    intro m0 n
    rw [List.foldl_cons, ih, mem_mapKeys_insert]
    constructor
    · rintro (h | h)
      · rcases h with h | h
        · exact Or.inr ⟨p, List.mem_cons_self p rest, h.symm⟩
        · exact Or.inl h
      · rcases h with ⟨q, hq, hqn⟩
        exact Or.inr ⟨q, List.mem_cons_of_mem p hq, hqn⟩
    · rintro (h | ⟨q, hq, hqn⟩)
      · exact Or.inl (Or.inr h)
      · rcases List.mem_cons.mp hq with rfl | hq2
        · exact Or.inl (Or.inl hqn.symm)
        · exact Or.inr ⟨q, hq2, hqn⟩

theorem mem_foldl_bitsetAdd {V : Type} :
    ∀ (ps : List (Nat × V)) (bs0 : List Nat) (n : Nat),
    (n ∈ ps.foldl (fun bs p => bitsetAdd p.1 bs) bs0 ↔
      n ∈ bs0 ∨ ∃ p ∈ ps, p.1 = n) := by
  intro ps
  induction ps with
  | nil => intro bs0 n; simp
  | cons p rest ih =>
    intro bs0 n
    rw [List.foldl_cons, ih, mem_bitsetAdd]
    constructor
    · rintro (h | h)
      · rcases h with h | h
        · exact Or.inr ⟨p, List.mem_cons_self p rest, h.symm⟩
        · exact Or.inl h
      · rcases h with ⟨q, hq, hqn⟩
        exact Or.inr ⟨q, List.mem_cons_of_mem p hq, hqn⟩
    · rintro (h | ⟨q, hq, hqn⟩)
      · exact Or.inl (Or.inr h)
      · rcases List.mem_cons.mp hq with rfl | hq2
        · exact Or.inl (Or.inl hqn.symm)
        · exact Or.inr ⟨q, hq2, hqn⟩

theorem foldl_bitsetAdd_pairwise {V : Type} :
    ∀ (ps : List (Nat × V)) (bs0 : List Nat),
    bs0.Pairwise (· < ·) →
    (ps.foldl (fun bs p => bitsetAdd p.1 bs) bs0).Pairwise (· < ·) := by
  intro ps
  induction ps with
  | nil => intro bs0 h; exact h
  | cons p rest ih =>
    intro bs0 h
    rw [List.foldl_cons]
    exact ih (bitsetAdd p.1 bs0) (bitsetAdd_pairwise h)

/-- Claim C5: building the adapter from a sequence of in-range pairs with
`from_iter` (backend inserts first, then one `new` scan) is the same as
default-constructing the empty adapter and performing the adapter's standard
`insert` for each pair in input order (the construction the spec describes,
`specFromPairs`); duplicate keys are overwritten by later pairs in both. -/
theorem c5_from_iter_refines_insert_fold {V : Type} [Inhabited V]
    (ps : List (Nat × V)) (hin : ∀ p ∈ ps, p.1 < 4294967296) :
    BitSetCollection.from_iter (mapOps V) usizeToU32 [] ps =
      specFromPairs ps := by
  rw [specFromPairs, specFromPairs_foldl ps ⟨[], []⟩ hin]
  show BitSetCollection.new (mapOps V) usizeToU32
    (ps.foldl (fun c p => (mapInsert c p.1 p.2).2) []) = _
  set M := ps.foldl (fun c p => (mapInsert c p.1 p.2).2) [] with hM
  have hkeysM : ∀ n ∈ mapKeys M, usizeToU32 n = some n := by
    intro n hn
    rcases (mem_mapKeys_foldl ps [] n).mp hn with h | ⟨p, hp, hpn⟩
    · simp [mapKeys] at h
    · subst hpn
      simp [usizeToU32, hin p hp]
  have hconv := tryConvert_id_of hkeysM
  have hnew : BitSetCollection.new (mapOps V) usizeToU32 M =
      .ok ⟨bitsetFromList (mapKeys M), M⟩ := by
    simp [BitSetCollection.new, mapOps, hconv]
  rw [hnew]
  have hcol : (ps.foldl specStep
      (⟨[], []⟩ : BitSetCollection (List (Nat × V)))).collection = M := by
    rw [foldl_specStep_collection]
  have hbs0 : (ps.foldl specStep
      (⟨[], []⟩ : BitSetCollection (List (Nat × V)))).bitset =
      ps.foldl (fun bs p => bitsetAdd p.1 bs) [] := by
    rw [foldl_specStep_bitset]
  have hbseq : bitsetFromList (mapKeys M) =
      ps.foldl (fun bs p => bitsetAdd p.1 bs) [] := by
    apply sorted_eq_of_mem_iff bitsetFromList_pairwise
      (foldl_bitsetAdd_pairwise ps [] List.Pairwise.nil)
    intro n
    rw [mem_bitsetFromList, mem_foldl_bitsetAdd, hM, mem_mapKeys_foldl]
    simp [mapKeys]
  have hfin : (⟨bitsetFromList (mapKeys M), M⟩ :
      BitSetCollection (List (Nat × V))) = ps.foldl specStep ⟨[], []⟩ := by
    rw [hbseq, ← hbs0, ← hcol]
  rw [hfin]

/-- Witness for C5: the two constructions agree on the pair list
`[(0,1), (2,3), (0,9)]`, which exercises a duplicate key. -/
theorem c5_witness :
    BitSetCollection.from_iter (mapOps Nat) usizeToU32 []
        [(0, 1), (2, 3), (0, 9)] =
      specFromPairs [(0, 1), (2, 3), (0, 9)] :=
  c5_from_iter_refines_insert_fold [(0, 1), (2, 3), (0, 9)] (by decide)

/-! ### Claim C10: the in-flight key sequence under adapter mutation -/

theorem iterStep_mut_preserves {V : Type} [Inhabited V] (s : IterRun V)
    (op : IterOp V) (h : op.isNext = false) :
    (iterStep s op).iter = s.iter ∧ (iterStep s op).out = s.out := by
  cases op with
  | next => simp [IterOp.isNext] at h
  | ins k v =>
    simp only [iterStep]
    cases BitSetCollection.insert (mapOps V) usizeToU32 s.adapter k v with
    | ok r => exact ⟨rfl, rfl⟩
    | error e => exact ⟨rfl, rfl⟩
  | rem k =>
    simp only [iterStep]
    cases BitSetCollection.remove (mapOps V) usizeToU32 s.adapter k with
    | ok r => exact ⟨rfl, rfl⟩
    | error e => exact ⟨rfl, rfl⟩

/-- The evolution of the in-flight iterator and of the keys it produces
depends only on the iterator state, never on the adapter component. -/
theorem iterRunAll_adapter_indep {V : Type} [Inhabited V] :
    ∀ (ops : List (IterOp V)) (s s' : IterRun V),
    s.iter = s'.iter → s.out = s'.out →
    (iterRunAll s ops).iter = (iterRunAll s' ops).iter ∧
      (iterRunAll s ops).out = (iterRunAll s' ops).out := by
  intro ops
  induction ops with
  | nil => intro s s' h1 h2; exact ⟨h1, h2⟩
  | cons op rest ih =>
    intro s s' h1 h2
    have hstep : (iterStep s op).iter = (iterStep s' op).iter ∧
        (iterStep s op).out = (iterStep s' op).out := by
      cases hop : op.isNext with
      | true =>
        cases op with
        | next =>
          cases hiter : s'.iter with
          | nil => simp [iterStep, h1, hiter, h2]
          | cons n rest' => simp [iterStep, h1, hiter, h2]
        | ins k v => simp [IterOp.isNext] at hop
        | rem k => simp [IterOp.isNext] at hop
      | false =>
        obtain ⟨e1, e2⟩ := iterStep_mut_preserves s op hop
        obtain ⟨e1', e2'⟩ := iterStep_mut_preserves s' op hop
        exact ⟨by rw [e1, e1', h1], by rw [e2, e2', h2]⟩
    exact ih (iterStep s op) (iterStep s' op) hstep.1 hstep.2

/-- Counterexample to claim C10 as stated: the key sequence is NOT a live
view — `keys()` iterates `self.bitset.clone()`, so no in-flight sequence
ever produces different elements because of a subsequent insert or remove;
the claimed divergence is impossible. -/
theorem c10_counterexample : c10LiveViewClaim ↔ False := by
  constructor
  · rintro ⟨a, pre, post, mo, hmo, hneq⟩
    apply hneq
    have hmut : mo.isNext = false := by
      cases mo with
      | next => exact absurd rfl hmo
      | ins k v => rfl
      | rem k => rfl
    have e1 : iterRunAll (⟨a, mkKeyIter a, []⟩ : IterRun Nat)
        (pre ++ mo :: post) =
        iterRunAll (iterStep (iterRunAll ⟨a, mkKeyIter a, []⟩ pre) mo)
          post := by
      simp [iterRunAll, List.foldl_append]
    have e2 : iterRunAll (⟨a, mkKeyIter a, []⟩ : IterRun Nat) (pre ++ post) =
        iterRunAll (iterRunAll ⟨a, mkKeyIter a, []⟩ pre) post := by
      simp [iterRunAll, List.foldl_append]
    rw [e1, e2]
    have hp := iterStep_mut_preserves
      (iterRunAll (⟨a, mkKeyIter a, []⟩ : IterRun Nat) pre) mo hmut
    exact (iterRunAll_adapter_indep post _ _ hp.1 hp.2).2
  · exact False.elim

/-- Claim C10 (amended): the key sequence returned by `keys()` is a snapshot
of the presence index taken at call time (the source iterates
`self.bitset.clone()`), not a live view: deleting all interleaved insert and
remove events from a run changes neither the iterator's remaining elements
nor the keys the in-flight sequence produces. -/
theorem c10_keys_sequence_is_snapshot {V : Type} [Inhabited V] :
    ∀ (ops : List (IterOp V)) (s : IterRun V),
    (iterRunAll s ops).iter =
        (iterRunAll s (ops.filter IterOp.isNext)).iter ∧
      (iterRunAll s ops).out =
        (iterRunAll s (ops.filter IterOp.isNext)).out := by
  intro ops
  induction ops with
  | nil => intro s; exact ⟨rfl, rfl⟩
  | cons op rest ih =>
    intro s
    cases hop : op.isNext with
    | true =>
      have hfilter : (op :: rest).filter IterOp.isNext =
          op :: rest.filter IterOp.isNext := by
        simp [List.filter_cons, hop]
      rw [hfilter]
      exact ih (iterStep s op)
    | false =>
      have hfilter : (op :: rest).filter IterOp.isNext =
          rest.filter IterOp.isNext := by
        simp [List.filter_cons, hop]
      rw [hfilter]
      have hp := iterStep_mut_preserves s op hop
      have hindep := iterRunAll_adapter_indep (rest.filter IterOp.isNext)
        (iterStep s op) s hp.1 hp.2
      have hih := ih (iterStep s op)
      exact ⟨hih.1.trans hindep.1, hih.2.trans hindep.2⟩
